import Mathlib

/-!
Verification of the m3u-to-Spotify playlist utilities.

The Python sources are shallowly embedded: Python strings are lists of
characters, files are lists of lines, remote services are oracles passed in
as functions, and every fallible step returns an Option.  Each definition is
translated directly from the corresponding function of the repository.
-/

namespace M3U

/-- Python strings are modelled as lists of characters. -/
abbrev Str := List Char

/-- ASCII whitespace as recognised by the default str.strip().  (Unicode-only
whitespace characters are not modelled; the playlist code never produces
them.) -/
def pyWS (c : Char) : Bool :=
  c = ' ' || c = '\t' || c = '\n' || c = '\r' || c = '\x0b' || c = '\x0c'

/-- Drop trailing whitespace (the right half of str.strip()). -/
def stripEnd (s : Str) : Str :=
  (s.reverse.dropWhile pyWS).reverse

/-- Python str.strip(): drop leading and trailing whitespace. -/
def strip (s : Str) : Str :=
  stripEnd (s.dropWhile pyWS)

/-- Python s.startswith(p): beginsWith p s. -/
def beginsWith : Str → Str → Bool
  | [], _ => true
  | _ :: _, [] => false
  | p :: ps, c :: cs => p = c && beginsWith ps cs

/-- Python s.split(sep, 1) for a non-empty separator: the text before the
first occurrence of sep, and the text after it when sep occurs at all. -/
def splitOnce (sep : Str) : Str → Str × Option Str
  | [] => ([], none)
  | c :: cs =>
    if beginsWith sep (c :: cs) then
      ([], some ((c :: cs).drop sep.length))
    else
      let r := splitOnce sep cs
      (c :: r.1, r.2)

/-- The decimal digit characters produced by str() of an int. -/
def digitChar : Nat → Char
  | 0 => '0' | 1 => '1' | 2 => '2' | 3 => '3' | 4 => '4'
  | 5 => '5' | 6 => '6' | 7 => '7' | 8 => '8' | 9 => '9'
  | _ => '*'

/-- Numeric value of an ASCII digit character. -/
def digitVal (c : Char) : Nat := c.toNat - 48

/-- Value of a non-empty all-digit string, as accepted by Python int(). -/
def digitsVal? (s : Str) : Option Nat :=
  if s ≠ [] ∧ s.all Char.isDigit then
    some (s.foldl (fun acc c => acc * 10 + digitVal c) 0)
  else none

/-- Python int(s) on a decimal string: surrounding whitespace is ignored and
an optional single sign precedes a non-empty run of ASCII digits.
(Underscore grouping and non-ASCII digits are not modelled; the playlist
code never produces them.)  Returns none where Python raises ValueError. -/
def pyInt? (s : Str) : Option Int :=
  match strip s with
  | [] => none
  | c :: rest =>
    if c = '+' then (digitsVal? rest).map (fun n => (n : Int))
    else if c = '-' then (digitsVal? rest).map (fun n => -(n : Int))
    else (digitsVal? (c :: rest)).map (fun n => (n : Int))

/-- Decimal rendering of a natural number, as Python str() does. -/
def natToStr (n : Nat) : Str :=
  if _h : n < 10 then [digitChar n]
  else natToStr (n / 10) ++ [digitChar (n % 10)]
decreasing_by exact Nat.div_lt_self (by omega) (by omega)

/-- Python str() of an int. -/
def intToStr (d : Int) : Str :=
  if d < 0 then '-' :: natToStr (-d).toNat else natToStr d.toNat

/-- A track record as built by parse_m3u: exactly the five keys path, title,
artist, duration and metadata. -/
structure Song where
  path : Str
  title : Str
  artist : Str
  duration : Int
  metadata : Str
deriving DecidableEq, Repr

def hdrEXTM3U : Str := "#EXTM3U".toList

def tagEXTINF : Str := "#EXTINF:".toList

def hashStr : Str := "#".toList

def sepDash : Str := " - ".toList

/-- The artist/title split applied to the text after the comma of an EXTINF
line: Python keeps title = title_artist and artist empty unless " - "
occurs, in which case both sides are stripped. -/
def titleArtistPair (titleArtist : Str) : Str × Str :=
  match splitOnce sepDash titleArtist with
  | (a, some t) => (strip t, strip a)
  | (r, none) => (r, [])

/-- The EXTINF branch of parse_m3u, applied to the already stripped line.
Returns the new current_song, or none when int() raises and the except
branch resets current_song. -/
def extinfStep (line : Str) : Option Song :=
  let md := splitOnce [','] (line.drop 8)
  let durStr := md.1
  let titleArtist := match md.2 with | some t => t | none => []
  match pyInt? durStr with
  | none => none
  | some d =>
    let ta := titleArtistPair titleArtist
    some { path := [], title := ta.1, artist := ta.2, duration := d, metadata := titleArtist }

/-- The branch structure of one parse_m3u loop iteration, applied to the
already stripped line: from the current_song state, the new state and the
records appended during the iteration. -/
def parseStepLine (cur : Option Song) (line : Str) : Option Song × List Song :=
  if line = [] then (cur, [])
  else if line = hdrEXTM3U then (cur, [])
  else if beginsWith tagEXTINF line then (extinfStep line, [])
  else if beginsWith hashStr line = false ∧ cur.isSome then
    match cur with
    | some s => (none, [{ s with path := line }])
    | none => (none, [])
  else if beginsWith hashStr line then (cur, [])
  else (cur, [{ path := line, title := [], artist := [], duration := 0, metadata := [] }])

/-- One iteration of the parse_m3u loop: the raw line is stripped first. -/
def parseStep (cur : Option Song) (rawLine : Str) : Option Song × List Song :=
  parseStepLine cur (strip rawLine)

/-- The parse_m3u loop over the remaining lines. -/
def parseLines : Option Song → List Str → List Song
  | _, [] => []
  | cur, l :: rest =>
    let st := parseStep cur l
    st.2 ++ parseLines st.1 rest

/-- parse_m3u: the input file is given as its list of lines. -/
def parse_m3u (lines : List Str) : List Song :=
  parseLines none lines

/-- The per-song lines written by the loop body of save_batches: an EXTINF
line exactly when the metadata string is truthy, then the path line. -/
def writeSongLines (s : Song) : List Str :=
  if s.metadata ≠ [] then
    [tagEXTINF ++ intToStr s.duration ++ ',' :: s.metadata, s.path]
  else
    [s.path]

/-- The full contents of one batch file written by save_batches: the EXTM3U
header line followed by each song of the batch. -/
def batchLines (batch : List Song) : List Str :=
  hdrEXTM3U :: batch.bind writeSongLines

/-- Python range(start, stop, step) for step ≥ 1.  (range raises for step 0;
the splitter only ever uses a positive step.) -/
def pyRange (start stop step : Nat) : List Nat :=
  if step = 0 then []
  else (List.range ((stop - start + step - 1) / step)).map (fun k => start + k * step)

/-- split_into_batches: the comprehension
[songs[i:i + batch_size] for i in range(0, len(songs), batch_size)]. -/
def split_into_batches {α : Type} (songs : List α) (batch_size : Nat) : List (List α) :=
  (pyRange 0 songs.length batch_size).map (fun i => (songs.drop i).take batch_size)

/-!
### Deduplicator (spotify_playlist_deduplicator.py)

A playlist item is modelled by its track field.  A Python item that is None,
lacks the track key, or has a falsy track value behaves identically in every
function below, so all three are modelled as track = none.
-/

/-- The track dictionary fields read by the deduplicator.  A local track can
have id None, and uri may be absent; an empty-string uri is falsy in Python
and is modelled as none as well. -/
structure SpTrack where
  id : Option Str
  uri : Option Str
  name : Str
  artistNames : List Str
deriving DecidableEq, Repr

/-- One entry of a playlist_items response. -/
structure Item where
  track : Option SpTrack
deriving DecidableEq, Repr

/-- The value stored in the track_ids dict for a first occurrence. -/
structure SeenEntry where
  position : Nat
  name : Str
  artists : List Str
deriving DecidableEq, Repr

/-- The find_duplicates loop.  seen is the track_ids dict as an insertion
ordered association list, pos the enumerate counter. -/
def fdGo (seen : List (Option Str × SeenEntry)) (pos : Nat) :
    List Item → List (Option Str × SeenEntry) × List Nat
  | [] => (seen, [])
  | it :: rest =>
    match it.track with
    | none => fdGo seen (pos + 1) rest
    | some tr =>
      if tr.id ∈ seen.map Prod.fst then
        let r := fdGo seen (pos + 1) rest
        (r.1, pos :: r.2)
      else
        fdGo (seen ++ [(tr.id, ⟨pos, tr.name, tr.artistNames⟩)]) (pos + 1) rest

/-- find_duplicates: the dict of first occurrences by track id, and the list
of duplicate positions in loop order. -/
def find_duplicates (tracks : List Item) : List (Option Str × SeenEntry) × List Nat :=
  fdGo [] 0 tracks

/-- The id of the track at a playlist position, when the item carries track
info. -/
def trackIdAt (tracks : List Item) (p : Nat) : Option (Option Str) :=
  match tracks.get? p with
  | some it => it.track.map (fun tr => tr.id)
  | none => none

/-- Python sorted(l, reverse=True) on integers, as a stable insertion sort in
descending order. -/
def insertDesc (x : Nat) : List Nat → List Nat
  | [] => [x]
  | y :: ys => if x ≥ y then x :: y :: ys else y :: insertDesc x ys

def pySortDesc (l : List Nat) : List Nat := l.foldr insertDesc []

/-- One removal request entry: a track uri paired with the positions to
remove it from (remove_duplicates always uses a single position). -/
structure RemovalEntry where
  uri : Str
  positions : List Nat
deriving DecidableEq, Repr

/-- The body of the tracks_to_remove loop of remove_duplicates: the entry
built for one position, none when the position is out of range or the stored
track or uri is missing or falsy. -/
def entryAt (tracks : List Item) (pos : Nat) : Option RemovalEntry :=
  match tracks.get? pos with
  | none => none
  | some it =>
    match it.track with
    | none => none
    | some tr =>
      match tr.uri with
      | none => none
      | some u => if u ≠ [] then some ⟨u, [pos]⟩ else none

/-- The tracks_to_remove list of remove_duplicates: positions sorted in
descending order, each mapped to its removal entry when valid. -/
def tracks_to_remove (tracks : List Item) (duplicate_positions : List Nat) :
    List RemovalEntry :=
  (pySortDesc duplicate_positions).filterMap (entryAt tracks)

/-- The batched removal calls issued by remove_duplicates: the entry list is
cut into slices of at most 100 by the same comprehension as the splitter. -/
def remove_duplicates_calls (tracks : List Item) (duplicate_positions : List Nat) :
    List (List RemovalEntry) :=
  split_into_batches (tracks_to_remove tracks duplicate_positions) 100

/-!
### Pagination loops (spotify_playlist_backup.py and the deduplicator)

The remote is modelled by the finite sequence of response pages it returns,
in request order; the next field of a page is modelled by whether it is
non-empty.
-/

/-- One remote response page. -/
structure Page (ι : Type) where
  items : List ι
  next : Bool
deriving Repr

/-- The while-True loop of fetch_playlist_tracks, started at a given offset:
the accumulated items and the offsets requested.  (An empty page list models
a remote that returns nothing; the hypotheses of the pagination claim keep
the list non-empty.) -/
def fetchLoop {ι : Type} (limit : Nat) : List (Page ι) → Nat → List ι × List Nat
  | [], _ => ([], [])
  | p :: rest, off =>
    if p.next then
      let r := fetchLoop limit rest (off + limit)
      (p.items ++ r.1, off :: r.2)
    else (p.items, [off])

/-- fetch_playlist_tracks: limit 100, offsets from 0, items concatenated in
request order. -/
def fetch_playlist_tracks {ι : Type} (pages : List (Page ι)) : List ι × List Nat :=
  fetchLoop 100 pages 0

/-- The while results-next loop of the deduplicator, given the next flag of
the previously fetched page. -/
def gptGo {ι : Type} : Bool → List (Page ι) → List ι
  | false, _ => []
  | true, [] => []
  | true, p :: rest => p.items ++ gptGo p.next rest

/-- get_playlist_tracks of the deduplicator: one unconditional first request,
then sp.next while the previous response has a next link. -/
def get_playlist_tracks {ι : Type} (pages : List (Page ι)) : List ι :=
  match pages with
  | [] => []
  | p :: rest => p.items ++ gptGo p.next rest

/-!
### Backup normalisation (spotify_playlist_backup.py)

Dictionary fields read with .get are modelled as Option; a field read with
.get and a default is an Option plus the default; (x or y) on a missing or
falsy dict is modelled by Option.  Only the fields the script reads are
modelled.
-/

structure BArtist where
  id : Option Str
  name : Option Str
deriving DecidableEq, Repr

structure BAlbum where
  id : Option Str
  name : Option Str
deriving DecidableEq, Repr

structure ExtUrls where
  spotify : Option Str
deriving DecidableEq, Repr

structure AddedBy where
  id : Option Str
deriving DecidableEq, Repr

/-- The track dictionary fields read by normalize_tracks. -/
structure BTrack where
  id : Option Str
  uri : Option Str
  name : Option Str
  artists : Option (List BArtist)
  album : Option BAlbum
  duration_ms : Option Int
  is_local : Option Bool
  external_urls : Option ExtUrls
  explicit : Option Bool
deriving DecidableEq, Repr

/-- One item of a playlist_items or saved-tracks response, as read by
normalize_tracks; a missing or falsy track dict is track = none. -/
structure BItem where
  track : Option BTrack
  added_at : Option Str
  added_by : Option AddedBy
deriving DecidableEq, Repr

/-- The normalised record appended per item. -/
structure NTrack where
  position : Nat
  id : Option Str
  uri : Option Str
  name : Option Str
  artists : List BArtist
  album : Option BAlbum
  duration_ms : Option Int
  is_local : Bool
  spotify_url : Option Str
  added_at : Option Str
  added_by : Option Str
  explicit : Option Bool
  available : Bool
deriving DecidableEq, Repr

/-- The album sub-dictionary written for an available track:
track.get(album, emptyDict).get(id) and .get(name). -/
def normAlbum (tr : BTrack) : BAlbum :=
  { id := tr.album.bind (fun a => a.id), name := tr.album.bind (fun a => a.name) }

/-- The body of the normalize_tracks loop for one enumerated item. -/
def normalizeItem (index : Nat) (item : BItem) : NTrack :=
  match item.track with
  | none =>
    { position := index
      id := none
      uri := none
      name := some "Unavailable Track".toList
      artists := []
      album := none
      duration_ms := none
      is_local := false
      spotify_url := none
      added_at := item.added_at
      added_by := none
      explicit := none
      available := false }
  | some tr =>
    { position := index
      id := tr.id
      uri := tr.uri
      name := tr.name
      artists := tr.artists.getD []
      album := some (normAlbum tr)
      duration_ms := tr.duration_ms
      is_local := tr.is_local.getD false
      spotify_url := tr.external_urls.bind (fun e => e.spotify)
      added_at := item.added_at
      added_by := item.added_by.bind (fun a => a.id)
      explicit := tr.explicit
      available := true }

/-- normalize_tracks: one normalised record per enumerated input item. -/
def normalize_tracks (items : List BItem) : List NTrack :=
  items.enum.map (fun p => normalizeItem p.1 p.2)

/-!
### Adder (spotify_playlist_adder.py)

urlparse is modelled after CPython urllib.parse for the components the
script reads (scheme, netloc, path); search and playlist_add_items are
oracles supplied as an environment.
-/

/-- The characters urllib allows in a scheme after its first letter. -/
def schemeChar (c : Char) : Bool :=
  c.isAlpha || c.isDigit || c = '+' || c = '-' || c = '.'

/-- Scheme extraction of urlsplit: a leading letter, scheme characters up to
the first colon; the scheme is lowercased and removed, otherwise the url is
left whole. -/
def splitScheme (url : Str) : Str × Str :=
  match splitOnce [':'] url with
  | (before, some after) =>
    if !before.isEmpty && (match before with | c :: _ => c.isAlpha | [] => false) &&
        before.all schemeChar then
      (before.map Char.toLower, after)
    else ([], url)
  | (_, none) => ([], url)

/-- Netloc extraction of urlsplit: after a leading double slash, everything
up to the first slash, question mark or hash. -/
def splitNetloc (url : Str) : Str × Str :=
  match url with
  | '/' :: '/' :: rest =>
    (rest.takeWhile (fun c => !(c = '/' || c = '?' || c = '#')),
     rest.dropWhile (fun c => !(c = '/' || c = '?' || c = '#')))
  | _ => ([], url)

/-- The uses_params list of urllib.parse: schemes whose path may carry a
semicolon parameter section. -/
def usesParams : List Str :=
  ["", "ftp", "hdl", "prospero", "http", "imap", "https", "shttp", "rtsp",
   "rtsps", "rtspu", "sip", "sips", "mms", "sftp", "tel"].map String.toList

/-- The _splitparams helper of urlparse: drop the parameter section after the
first semicolon of the last path segment. -/
def splitParams (p : Str) : Str :=
  if '/' ∈ p then
    let revSeg := p.reverse.takeWhile (fun c => c ≠ '/')
    let seg := revSeg.reverse
    if ';' ∈ seg then
      p.take (p.length - seg.length) ++ (splitOnce [';'] seg).1
    else p
  else (splitOnce [';'] p).1

/-- The components of urlparse read by the adder. -/
structure UrlParts where
  scheme : Str
  netloc : Str
  path : Str
deriving DecidableEq, Repr

/-- urllib.parse.urlparse for the scheme, netloc and path components: scheme
and netloc are split off, then the fragment after the first hash and the
query after the first question mark are removed, and for a scheme in
uses_params the parameter section is split from the path. -/
def urlparse (url : Str) : UrlParts :=
  let s1 := splitScheme url
  let s2 := splitNetloc s1.2
  let afterFrag := (splitOnce ['#'] s2.2).1
  let rawPath := (splitOnce ['?'] afterFrag).1
  let path :=
    if s1.1 ∈ usesParams ∧ ';' ∈ rawPath then splitParams rawPath else rawPath
  { scheme := s1.1, netloc := s2.1, path := path }

/-- Python substring containment, needle in hay. -/
def containsSub (needle : Str) : Str → Bool
  | [] => needle.isEmpty
  | c :: cs => beginsWith needle (c :: cs) || containsSub needle cs

/-- is_spotify_url: the parsed netloc is open.spotify.com and the parsed path
contains the substring track. -/
def is_spotify_url (url : Str) : Bool :=
  let parsed := urlparse url
  parsed.netloc == "open.spotify.com".toList && containsSub "track".toList parsed.path

/-- ASCII alphanumeric, the character class of the track id pattern. -/
def isAlnum (c : Char) : Bool := c.isAlpha || c.isDigit

/-- re.search of track/([a-zA-Z0-9]+): the leftmost position where track/ is
followed by at least one alphanumeric; the captured group is the maximal
alphanumeric run there. -/
def extract_track_id_from_url : Str → Option Str
  | [] => none
  | c :: cs =>
    if beginsWith "track/".toList (c :: cs) &&
        (match (c :: cs).drop 6 with | d :: _ => isAlnum d | [] => false) then
      some (((c :: cs).drop 6).takeWhile isAlnum)
    else extract_track_id_from_url cs

/-- posixpath basename: the part after the last slash. -/
def pyBasename (p : Str) : Str :=
  (p.reverse.takeWhile (fun c => c ≠ '/')).reverse

/-- The root part of os.path.splitext: the extension starts at the last dot,
provided some earlier character of the final path segment is not a dot. -/
def splitextRoot (p : Str) : Str :=
  let seg := (p.reverse.takeWhile (fun c => c ≠ '/')).reverse
  let segStart := p.length - seg.length
  match (List.range p.length).filter (fun i => p.get? i = some '.') |>.getLast? with
  | some dotIdx =>
    if segStart ≤ dotIdx ∧ ((p.drop segStart).take (dotIdx - segStart)).any (fun c => c ≠ '.') then
      p.take dotIdx
    else p
  | none => p

/-- extract_search_query_from_song: an artist and title query from the
metadata when both are truthy, otherwise from the file name. -/
def extract_search_query_from_song (song : Song) : Str :=
  if song.artist ≠ [] ∧ song.title ≠ [] then
    "track:".toList ++ song.title ++ " artist:".toList ++ song.artist
  else
    let file_path := song.path
    if file_path = [] then []
    else
      let filenameNoExt := splitextRoot (pyBasename file_path)
      match splitOnce sepDash filenameNoExt with
      | (a, some t) => "track:".toList ++ t ++ " artist:".toList ++ a
      | (r, none) => r

/-- Outcome of one sp.search call: the list of result track ids, or a raised
exception. -/
inductive SearchOutcome
  | raised
  | ok (ids : List Str)

/-- The remote environment of process_m3u_batch: the search oracle and the
success of each playlist_add_items call by call index. -/
structure AdderEnv where
  search : Str → SearchOutcome
  addOk : Nat → Bool

/-- The search part of one loop iteration of process_m3u_batch: the resolved
ids, the failed tracks, and the search queries issued. -/
def resolveSearch (env : AdderEnv) (track : Song) : List Str × List Song × List Str :=
  let query := extract_search_query_from_song track
  if query = [] then ([], [track], [])
  else
    match env.search query with
    | .raised => ([], [track], [query])
    | .ok [] => ([], [track], [query])
    | .ok (tid :: _) => ([tid], [], [query])

/-- One loop iteration of process_m3u_batch: a Spotify url with an
extractable id resolves directly, everything else goes through search. -/
def resolveStep (env : AdderEnv) (track : Song) : List Str × List Song × List Str :=
  let track_path := track.path
  if is_spotify_url track_path then
    match extract_track_id_from_url track_path with
    | some tid => ([tid], [], [])
    | none => resolveSearch env track
  else resolveSearch env track

/-- The full resolution loop of process_m3u_batch over the parsed tracks. -/
def resolveTracks (env : AdderEnv) : List Song → List Str × List Song × List Str
  | [] => ([], [], [])
  | t :: ts =>
    let r := resolveStep env t
    let rest := resolveTracks env ts
    (r.1 ++ rest.1, r.2.1 ++ rest.2.1, r.2.2 ++ rest.2.2)

/-- process_m3u_batch after parsing: resolve every track, then add the
resolved ids in slices of 100, counting the sizes of the successful calls.
Returns (number added, number failed, failed tracks). -/
def process_m3u_batch (env : AdderEnv) (tracks : List Song) : Nat × Nat × List Song :=
  let r := resolveTracks env tracks
  let track_ids := r.1
  let failed_tracks := r.2.1
  let batches := split_into_batches track_ids 100
  let successful :=
    (batches.enum.map (fun bi => if env.addOk bi.1 then bi.2.length else 0)).sum
  (successful, failed_tracks.length, failed_tracks)

/-- The failure condition of the claim: no query can be built, the search
raises, or it returns no items (and the track does not resolve directly from
a Spotify url). -/
def failsResolution (env : AdderEnv) (t : Song) : Bool :=
  if is_spotify_url t.path ∧ (extract_track_id_from_url t.path).isSome then false
  else
    let q := extract_search_query_from_song t
    if q = [] then true
    else
      match env.search q with
      | .raised => true
      | .ok [] => true
      | .ok (_ :: _) => false

/-! ### Lemmas about split_into_batches -/

lemma pyRange_zero_zero (k : Nat) : pyRange 0 0 k = [] := by
  unfold pyRange
  rcases Nat.eq_zero_or_pos k with hk | hk
  · simp [hk]
  · have hk0 : k ≠ 0 := Nat.pos_iff_ne_zero.mp hk
    have h2 : (k - 1) / k = 0 := Nat.div_eq_of_lt (by omega)
    simp [hk0, h2]

lemma split_into_batches_nil {α : Type} (k : Nat) :
    split_into_batches ([] : List α) k = [] := by
  unfold split_into_batches
  simp [pyRange_zero_zero]

lemma pyRange_count_succ (n k : Nat) (hk : 1 ≤ k) (hn : 1 ≤ n) :
    (n + k - 1) / k = (n - k + k - 1) / k + 1 := by
  rcases Nat.lt_or_ge n k with h | h
  · have h1 : n - k = 0 := by omega
    have h2 : (0 + k - 1) / k = 0 := Nat.div_eq_of_lt (by omega)
    have h3 : (n + k - 1) / k = 1 :=
      Nat.div_eq_of_lt_le (by omega) (by omega)
    rw [h1, h2, h3]
  · have h1 : n + k - 1 = (n - k + k - 1) + k := by omega
    rw [h1, Nat.add_div_right _ (by omega)]

lemma split_into_batches_cons {α : Type} (k : Nat) (hk : 1 ≤ k) (l : List α) (hl : l ≠ []) :
    split_into_batches l k = l.take k :: split_into_batches (l.drop k) k := by
  have hk0 : k ≠ 0 := by omega
  have hn : 1 ≤ l.length := List.length_pos.mpr hl
  unfold split_into_batches pyRange
  simp only [hk0, if_false, List.length_drop, Nat.sub_zero]
  rw [pyRange_count_succ l.length k hk hn, List.range_succ_eq_map]
  simp only [List.map_cons, List.map_map, List.drop_zero, Nat.zero_add, Nat.zero_mul,
    List.take_zero, List.drop_drop]
  refine congrArg₂ _ rfl ?_
  apply List.map_congr_left
  intro j _
  have hjk : j.succ * k = k + j * k := by
    rw [Nat.succ_mul]
    exact Nat.add_comm _ _
  simp only [Function.comp_apply]
  rw [hjk]

lemma split_into_batches_flatten {α : Type} (k : Nat) (hk : 1 ≤ k) :
    ∀ l : List α, (split_into_batches l k).flatten = l := by
  intro l
  generalize hn : l.length = n
  induction n using Nat.strong_induction_on generalizing l with
  | _ n ih =>
    rcases l with _ | ⟨a, l⟩
    · simp [split_into_batches_nil]
    · rw [split_into_batches_cons k hk _ (by simp)]
      have hlen : ((a :: l).drop k).length < n := by
        simp only [List.length_drop, List.length_cons] at hn ⊢
        omega
      rw [List.flatten_cons, ih _ hlen _ rfl, List.take_append_drop]

lemma split_into_batches_lengths {α : Type} (k : Nat) (hk : 1 ≤ k) :
    ∀ l : List α,
      (∀ b ∈ (split_into_batches l k).dropLast, b.length = k) ∧
      (∀ b, (split_into_batches l k).getLast? = some b → 1 ≤ b.length ∧ b.length ≤ k) := by
  intro l
  generalize hn : l.length = n
  induction n using Nat.strong_induction_on generalizing l with
  | _ n ih =>
    rcases l with _ | ⟨a, l⟩
    · simp [split_into_batches_nil]
    · rw [split_into_batches_cons k hk _ (by simp)]
      rcases hrest : split_into_batches ((a :: l).drop k) k with _ | ⟨r, rs⟩
      · constructor
        · intro b hb
          simp at hb
        · intro b hb
          simp only [List.getLast?_singleton, Option.some.injEq] at hb
          subst hb
          have hle : (a :: l).length ≤ k := by
            by_contra hgt
            push_neg at hgt
            have : (a :: l).drop k ≠ [] := by
              intro hdk
              have := List.drop_eq_nil_iff.mp hdk
              omega
            rw [split_into_batches_cons k hk _ this] at hrest
            exact absurd hrest (by simp)
          constructor
          · simp only [List.length_take]
            simp only [List.length_cons] at *
            omega
          · simp [List.length_take]
      · have hlen : ((a :: l).drop k).length < n := by
          simp only [List.length_drop, List.length_cons] at *
          omega
        have hdk : (a :: l).drop k ≠ [] := by
          intro hdk
          rw [hdk, split_into_batches_nil] at hrest
          exact absurd hrest (by simp)
        have hklt : k < (a :: l).length := by
          by_contra hge
          push_neg at hge
          exact hdk (List.drop_eq_nil_iff.mpr hge)
        obtain ⟨ihA, ihB⟩ := ih _ hlen ((a :: l).drop k) rfl
        rw [hrest] at ihA ihB
        constructor
        · intro b hb
          rw [List.dropLast_cons₂] at hb
          rcases List.mem_cons.mp hb with hb | hb
          · subst hb
            simp only [List.length_take]
            omega
          · exact ihA b hb
        · intro b hb
          rw [List.getLast?_cons_cons] at hb
          exact ihB b hb


/-! ### Claims C3 and C2 -/

/-- C3: for every list of songs and every batch_size ≥ 1, split_into_batches
returns the consecutive slices of the input in order: every batch except
possibly the last has length exactly batch_size, the last batch has length
between 1 and batch_size, the concatenation of the batches equals the input,
and the empty list yields zero batches. -/
theorem split_into_batches_spec {α : Type} (songs : List α) (batch_size : Nat)
    (hk : 1 ≤ batch_size) :
    (∀ b ∈ (split_into_batches songs batch_size).dropLast, b.length = batch_size) ∧
    (∀ b, (split_into_batches songs batch_size).getLast? = some b →
      1 ≤ b.length ∧ b.length ≤ batch_size) ∧
    (split_into_batches songs batch_size).flatten = songs ∧
    (songs = [] → split_into_batches songs batch_size = []) := by
  obtain ⟨h1, h2⟩ := split_into_batches_lengths batch_size hk songs
  refine ⟨h1, h2, split_into_batches_flatten batch_size hk songs, ?_⟩
  intro h
  subst h
  exact split_into_batches_nil _

theorem split_into_batches_spec_witness :
    (∀ b ∈ (split_into_batches [1, 2, 3] 2).dropLast, b.length = 2) ∧
    (∀ b, (split_into_batches [1, 2, 3] 2).getLast? = some b →
      1 ≤ b.length ∧ b.length ≤ 2) ∧
    (split_into_batches [1, 2, 3] 2).flatten = [1, 2, 3] ∧
    (([1, 2, 3] : List Nat) = [] → split_into_batches [1, 2, 3] 2 = []) :=
  split_into_batches_spec [1, 2, 3] 2 (by norm_num)

lemma beginsWith_head (p : Char) (ps s : Str) (h : beginsWith (p :: ps) s = true) :
    ∃ cs, s = p :: cs := by
  cases s with
  | nil => simp [beginsWith] at h
  | cons c cs =>
    simp only [beginsWith, Bool.and_eq_true, decide_eq_true_eq] at h
    exact ⟨cs, by rw [h.1]⟩

lemma beginsWith_hash_of_tag (s : Str) (h : beginsWith tagEXTINF s = true) :
    beginsWith hashStr s = true := by
  have htag : tagEXTINF = '#' :: "EXTINF:".toList := rfl
  rw [htag] at h
  obtain ⟨cs, rfl⟩ := beginsWith_head '#' _ s h
  have hh : hashStr = ['#'] := rfl
  rw [hh]
  simp [beginsWith]

lemma parseLines_cons (cur : Option Song) (l : Str) (rest : List Str) :
    parseLines cur (l :: rest) =
      (parseStep cur l).2 ++ parseLines (parseStep cur l).1 rest := rfl

/-- C2: parse_m3u returns records with exactly the five fields of Song (the
return type List Song states this), and a path line with no preceding
metadata line yields a record with empty title, artist and metadata and
duration 0: against any non-empty stripped line that does not start with a
hash, with no pending EXTINF state, the parser emits exactly the bare
record. -/
theorem parse_m3u_bare_path_record (l : Str) (rest : List Str)
    (h1 : strip l ≠ []) (h2 : beginsWith hashStr (strip l) = false) :
    parse_m3u (l :: rest) =
      { path := strip l, title := [], artist := [], duration := 0,
        metadata := [] } :: parse_m3u rest := by
  have hhdr : strip l ≠ hdrEXTM3U := by
    intro he
    rw [he] at h2
    exact absurd h2 (by decide)
  have hext : beginsWith tagEXTINF (strip l) = false := by
    cases hb : beginsWith tagEXTINF (strip l) with
    | false => rfl
    | true =>
      rw [beginsWith_hash_of_tag _ hb] at h2
      exact absurd h2 (by simp)
  have hstep : parseStep none l =
      (none, [{ path := strip l, title := [], artist := [], duration := 0,
                metadata := [] }]) := by
    unfold parseStep parseStepLine
    rw [if_neg h1, if_neg hhdr, if_neg (by simp [hext]),
      if_neg (by simp), if_neg (by simp [h2])]
  show parseLines none (l :: rest) = _
  rw [parseLines_cons, hstep]
  rfl

theorem parse_m3u_bare_path_record_witness :
    strip "song.mp3".toList ≠ [] ∧
    beginsWith hashStr (strip "song.mp3".toList) = false ∧
    parse_m3u ["song.mp3".toList] =
      [{ path := strip "song.mp3".toList, title := [], artist := [],
         duration := 0, metadata := [] }] :=
  ⟨by decide, by decide,
    parse_m3u_bare_path_record "song.mp3".toList [] (by decide) (by decide)⟩

/-! ### Claim C4: find_duplicates -/

lemma fdGo_step_none (seen : List (Option Str × SeenEntry)) (pos : Nat)
    (it : Item) (rest : List Item) (h : it.track = none) :
    fdGo seen pos (it :: rest) = fdGo seen (pos + 1) rest := by
  simp [fdGo, h]

lemma fdGo_step_dup (seen : List (Option Str × SeenEntry)) (pos : Nat)
    (it : Item) (rest : List Item) (tr : SpTrack) (h : it.track = some tr)
    (hm : tr.id ∈ seen.map Prod.fst) :
    fdGo seen pos (it :: rest) =
      ((fdGo seen (pos + 1) rest).1, pos :: (fdGo seen (pos + 1) rest).2) := by
  simp [fdGo, h, hm]

lemma fdGo_step_new (seen : List (Option Str × SeenEntry)) (pos : Nat)
    (it : Item) (rest : List Item) (tr : SpTrack) (h : it.track = some tr)
    (hm : tr.id ∉ seen.map Prod.fst) :
    fdGo seen pos (it :: rest) =
      fdGo (seen ++ [(tr.id, ⟨pos, tr.name, tr.artistNames⟩)]) (pos + 1) rest := by
  simp [fdGo, h, hm]

lemma fdGo_sorted (rest : List Item) : ∀ (seen : List (Option Str × SeenEntry)) (pos : Nat),
    (fdGo seen pos rest).2.Pairwise (· < ·) ∧ ∀ p ∈ (fdGo seen pos rest).2, pos ≤ p := by
  induction rest with
  | nil => intro seen pos; simp [fdGo]
  | cons it rest ih =>
    intro seen pos
    cases htr : it.track with
    | none =>
      rw [fdGo_step_none seen pos it rest htr]
      obtain ⟨h1, h2⟩ := ih seen (pos + 1)
      exact ⟨h1, fun p hp => by have := h2 p hp; omega⟩
    | some tr =>
      by_cases hm : tr.id ∈ seen.map Prod.fst
      · rw [fdGo_step_dup seen pos it rest tr htr hm]
        obtain ⟨h1, h2⟩ := ih seen (pos + 1)
        constructor
        · exact List.Pairwise.cons (fun p hp => by have := h2 p hp; omega) h1
        · intro p hp
          rcases List.mem_cons.mp hp with rfl | hp
          · omega
          · have := h2 p hp; omega
      · rw [fdGo_step_new seen pos it rest tr htr hm]
        obtain ⟨h1, h2⟩ := ih (seen ++ [(tr.id, ⟨pos, tr.name, tr.artistNames⟩)]) (pos + 1)
        exact ⟨h1, fun p hp => by have := h2 p hp; omega⟩

lemma fdGo_mem (rest : List Item) :
    ∀ (seen : List (Option Str × SeenEntry)) (pos p : Nat),
    p ∈ (fdGo seen pos rest).2 ↔
      ∃ i it tr, rest.get? i = some it ∧ it.track = some tr ∧ p = pos + i ∧
        (tr.id ∈ seen.map Prod.fst ∨
          ∃ j, j < i ∧ ∃ it2 tr2, rest.get? j = some it2 ∧ it2.track = some tr2 ∧
            tr2.id = tr.id) := by
  induction rest with
  | nil =>
    intro seen pos p
    constructor
    · intro h
      have hnil : (fdGo seen pos []).2 = [] := rfl
      rw [hnil] at h
      cases h
    · rintro ⟨i, it, tr, hget, _⟩
      rw [List.get?_nil] at hget
      cases hget
  | cons it rest ih =>
    intro seen pos p
    cases htr : it.track with
    | none =>
      rw [fdGo_step_none seen pos it rest htr, ih]
      constructor
      · rintro ⟨i, it1, tr1, hget, htrack, hp, hcond⟩
        refine ⟨i + 1, it1, tr1, by simpa using hget, htrack, by omega, ?_⟩
        rcases hcond with h | ⟨j, hj, it2, tr2, hg2, ht2, hid⟩
        · exact Or.inl h
        · exact Or.inr ⟨j + 1, by omega, it2, tr2, by simpa using hg2, ht2, hid⟩
      · rintro ⟨i, it1, tr1, hget, htrack, hp, hcond⟩
        cases i with
        | zero =>
          rw [List.get?_cons_zero] at hget
          cases hget
          rw [htr] at htrack
          cases htrack
        | succ i1 =>
          refine ⟨i1, it1, tr1, by simpa using hget, htrack, by omega, ?_⟩
          rcases hcond with h | ⟨j, hj, it2, tr2, hg2, ht2, hid⟩
          · exact Or.inl h
          · cases j with
            | zero =>
              rw [List.get?_cons_zero] at hg2
              cases hg2
              rw [htr] at ht2
              cases ht2
            | succ j1 =>
              exact Or.inr ⟨j1, by omega, it2, tr2, by simpa using hg2, ht2, hid⟩
    | some tr =>
      by_cases hm : tr.id ∈ seen.map Prod.fst
      · rw [fdGo_step_dup seen pos it rest tr htr hm]
        simp only [List.mem_cons]
        rw [ih]
        constructor
        · rintro (rfl | ⟨i, it1, tr1, hget, htrack, hp, hcond⟩)
          · exact ⟨0, it, tr, List.get?_cons_zero, htr, by omega, Or.inl hm⟩
          · refine ⟨i + 1, it1, tr1, by simpa using hget, htrack, by omega, ?_⟩
            rcases hcond with h | ⟨j, hj, it2, tr2, hg2, ht2, hid⟩
            · exact Or.inl h
            · exact Or.inr ⟨j + 1, by omega, it2, tr2, by simpa using hg2, ht2, hid⟩
        · rintro ⟨i, it1, tr1, hget, htrack, hp, hcond⟩
          cases i with
          | zero => exact Or.inl (by omega)
          | succ i1 =>
            refine Or.inr ⟨i1, it1, tr1, by simpa using hget, htrack, by omega, ?_⟩
            rcases hcond with h | ⟨j, hj, it2, tr2, hg2, ht2, hid⟩
            · exact Or.inl h
            · cases j with
              | zero =>
                rw [List.get?_cons_zero] at hg2
                cases hg2
                rw [htr] at ht2
                cases ht2
                exact Or.inl (hid ▸ hm)
              | succ j1 =>
                exact Or.inr ⟨j1, by omega, it2, tr2, by simpa using hg2, ht2, hid⟩
      · rw [fdGo_step_new seen pos it rest tr htr hm, ih]
        have hkeys : (seen ++ [(tr.id, (⟨pos, tr.name, tr.artistNames⟩ : SeenEntry))]).map Prod.fst
            = seen.map Prod.fst ++ [tr.id] := by simp
        constructor
        · rintro ⟨i, it1, tr1, hget, htrack, hp, hcond⟩
          refine ⟨i + 1, it1, tr1, by simpa using hget, htrack, by omega, ?_⟩
          rcases hcond with h | ⟨j, hj, it2, tr2, hg2, ht2, hid⟩
          · rw [hkeys] at h
            rcases List.mem_append.mp h with h | h
            · exact Or.inl h
            · have hid : tr1.id = tr.id := by simpa using h
              exact Or.inr ⟨0, by omega, it, tr, List.get?_cons_zero, htr, hid.symm⟩
          · exact Or.inr ⟨j + 1, by omega, it2, tr2, by simpa using hg2, ht2, hid⟩
        · rintro ⟨i, it1, tr1, hget, htrack, hp, hcond⟩
          cases i with
          | zero =>
            rw [List.get?_cons_zero] at hget
            cases hget
            rw [htr] at htrack
            cases htrack
            rcases hcond with h | ⟨j, hj, _, _, _, _, _⟩
            · exact absurd h hm
            · omega
          | succ i1 =>
            refine ⟨i1, it1, tr1, by simpa using hget, htrack, by omega, ?_⟩
            rcases hcond with h | ⟨j, hj, it2, tr2, hg2, ht2, hid⟩
            · exact Or.inl (by rw [hkeys]; exact List.mem_append.mpr (Or.inl h))
            · cases j with
              | zero =>
                rw [List.get?_cons_zero] at hg2
                cases hg2
                rw [htr] at ht2
                cases ht2
                refine Or.inl ?_
                rw [hkeys]
                exact List.mem_append.mpr (Or.inr (by simp [hid]))
              | succ j1 =>
                exact Or.inr ⟨j1, by omega, it2, tr2, by simpa using hg2, ht2, hid⟩

/-- C4: find_duplicates flags exactly the positions that carry track info and
whose track id equals the id at some earlier position carrying track info
(so first occurrences are never flagged); the flagged positions are strictly
increasing, and items without track info are never flagged. -/
theorem find_duplicates_spec (tracks : List Item) :
    (∀ p, p ∈ (find_duplicates tracks).2 ↔
      ∃ oid, trackIdAt tracks p = some oid ∧
        ∃ q, q < p ∧ trackIdAt tracks q = some oid) ∧
    (find_duplicates tracks).2.Pairwise (· < ·) := by
  constructor
  · intro p
    rw [find_duplicates, fdGo_mem]
    constructor
    · rintro ⟨i, it1, tr1, hget, htrack, hp, hcond⟩
      rcases hcond with h | ⟨j, hj, it2, tr2, hg2, ht2, hid⟩
      · simp at h
      · subst hp
        refine ⟨tr1.id, ?_, j, by omega, ?_⟩
        · unfold trackIdAt
          rw [Nat.zero_add, hget]
          simp [htrack]
        · unfold trackIdAt
          rw [hg2]
          simp [ht2, hid]
    · rintro ⟨oid, hp, q, hq, hqid⟩
      unfold trackIdAt at hp hqid
      cases hgp : tracks.get? p with
      | none => rw [hgp] at hp; cases hp
      | some it1 =>
        rw [hgp] at hp
        cases hgq : tracks.get? q with
        | none => rw [hgq] at hqid; cases hqid
        | some it2 =>
          rw [hgq] at hqid
          rw [Option.map_eq_some'] at hp hqid
          obtain ⟨tr1, htrack1, hid1⟩ := hp
          obtain ⟨tr2, htrack2, hid2⟩ := hqid
          exact ⟨p, it1, tr1, hgp, htrack1, by omega,
            Or.inr ⟨q, hq, it2, tr2, hgq, htrack2, by rw [hid1, hid2]⟩⟩
  · exact (fdGo_sorted tracks [] 0).1

/-! ### Claim C5: remove_duplicates -/

lemma insertDesc_all_lt (x : Nat) :
    ∀ (m : List Nat), (∀ y ∈ m, x < y) → insertDesc x m = m ++ [x] := by
  intro m
  induction m with
  | nil => intro _; rfl
  | cons y ys ih =>
    intro h
    have hy : x < y := h y (List.mem_cons_self y ys)
    unfold insertDesc
    rw [if_neg (by omega)]
    rw [ih (fun z hz => h z (List.mem_cons_of_mem y hz))]
    rfl

lemma pySortDesc_of_pairwise_lt (l : List Nat) (h : l.Pairwise (· < ·)) :
    pySortDesc l = l.reverse := by
  induction l with
  | nil => rfl
  | cons a l ih =>
    have hhead := (List.pairwise_cons.mp h).1
    have htail := (List.pairwise_cons.mp h).2
    show insertDesc a (pySortDesc l) = (a :: l).reverse
    rw [ih htail, insertDesc_all_lt a l.reverse
      (fun y hy => hhead y (List.mem_reverse.mp hy))]
    simp

lemma entryAt_elim (tracks : List Item) (pos : Nat) (e : RemovalEntry)
    (h : entryAt tracks pos = some e) :
    ∃ it tr u, tracks.get? pos = some it ∧ it.track = some tr ∧ tr.uri = some u ∧
      u ≠ [] ∧ e = ⟨u, [pos]⟩ := by
  unfold entryAt at h
  split at h
  · cases h
  · rename_i it heq1
    split at h
    · cases h
    · rename_i tr heq2
      split at h
      · cases h
      · rename_i u heq3
        by_cases hne : u = []
        · rw [if_neg (fun hc => hc hne)] at h
          cases h
        · rw [if_pos hne] at h
          exact ⟨it, tr, u, heq1, heq2, heq3, hne, (Option.some.inj h).symm⟩

lemma entryAt_positions (tracks : List Item) (pos : Nat) (e : RemovalEntry)
    (h : entryAt tracks pos = some e) : e.positions = [pos] := by
  obtain ⟨_, _, _, _, _, _, _, he⟩ := entryAt_elim tracks pos e h
  rw [he]

lemma filterMap_entry_positions (tracks : List Item) :
    ∀ (l : List Nat),
      ((l.filterMap (entryAt tracks)).flatMap (fun e => e.positions)) =
        l.filter (fun p => (entryAt tracks p).isSome) := by
  intro l
  induction l with
  | nil => rfl
  | cons p l ih =>
    cases h : entryAt tracks p with
    | none =>
      rw [List.filterMap_cons_none h, List.filter_cons_of_neg (by simp [h]), ih]
    | some e =>
      rw [List.filterMap_cons_some h, List.filter_cons_of_pos (by simp [h])]
      rw [List.flatMap_cons, entryAt_positions tracks p e h, ih]
      rfl

lemma split_into_batches_size_le {α : Type} (l : List α) (k : Nat) :
    ∀ b ∈ split_into_batches l k, b.length ≤ k := by
  intro b hb
  simp only [split_into_batches, List.mem_map] at hb
  obtain ⟨i, _, rfl⟩ := hb
  simp [List.length_take]

/-- C5: against the duplicate positions flagged by find_duplicates,
remove_duplicates builds each removal entry as the uri stored at a flagged
position paired with exactly that single position, the positions across all
entries are strictly descending (so each flagged position appears at most
once), every removal call carries at most 100 entries, and every position
named in a removal call has an earlier position carrying the same track id,
so a first occurrence is never named. -/
theorem remove_duplicates_spec (tracks : List Item) :
    (∀ e ∈ (remove_duplicates_calls tracks (find_duplicates tracks).2).flatten,
      ∃ p it tr u, e.positions = [p] ∧ p ∈ (find_duplicates tracks).2 ∧
        tracks.get? p = some it ∧ it.track = some tr ∧ tr.uri = some u ∧ e.uri = u) ∧
    (((remove_duplicates_calls tracks (find_duplicates tracks).2).flatten.flatMap
        (fun e => e.positions)).Pairwise (· > ·)) ∧
    (∀ c ∈ remove_duplicates_calls tracks (find_duplicates tracks).2, c.length ≤ 100) ∧
    (∀ e ∈ (remove_duplicates_calls tracks (find_duplicates tracks).2).flatten,
      ∀ p ∈ e.positions,
        ∃ oid, trackIdAt tracks p = some oid ∧
          ∃ q, q < p ∧ trackIdAt tracks q = some oid) := by
  have hsorted : (find_duplicates tracks).2.Pairwise (· < ·) :=
    (fdGo_sorted tracks [] 0).1
  have hflat : (remove_duplicates_calls tracks (find_duplicates tracks).2).flatten =
      tracks_to_remove tracks (find_duplicates tracks).2 :=
    split_into_batches_flatten 100 (by norm_num) _
  have hsort : pySortDesc (find_duplicates tracks).2 = (find_duplicates tracks).2.reverse :=
    pySortDesc_of_pairwise_lt _ hsorted
  have hmem_dup : ∀ p, p ∈ (find_duplicates tracks).2 →
      ∃ oid, trackIdAt tracks p = some oid ∧
        ∃ q, q < p ∧ trackIdAt tracks q = some oid := by
    intro p hp
    rw [find_duplicates, fdGo_mem] at hp
    obtain ⟨i, it1, tr1, hget, htrack, hpi, hcond⟩ := hp
    rcases hcond with h | ⟨j, hj, it2, tr2, hg2, ht2, hid⟩
    · simp at h
    · subst hpi
      refine ⟨tr1.id, ?_, j, by omega, ?_⟩
      · unfold trackIdAt
        rw [Nat.zero_add, hget]
        simp [htrack]
      · unfold trackIdAt
        rw [hg2]
        simp [ht2, hid]
  have hmem_entry : ∀ e ∈ tracks_to_remove tracks (find_duplicates tracks).2,
      ∃ p it tr u, e.positions = [p] ∧ p ∈ (find_duplicates tracks).2 ∧
        tracks.get? p = some it ∧ it.track = some tr ∧ tr.uri = some u ∧ e.uri = u := by
    intro e he
    unfold tracks_to_remove at he
    obtain ⟨p, hpmem, hpe⟩ := List.mem_filterMap.mp he
    obtain ⟨it, tr, u, hget, ht, hu, _, hee⟩ := entryAt_elim tracks p e hpe
    rw [hsort, List.mem_reverse] at hpmem
    exact ⟨p, it, tr, u, by rw [hee], hpmem, hget, ht, hu, by rw [hee]⟩
  refine ⟨?_, ?_, ?_, ?_⟩
  · rw [hflat]
    exact hmem_entry
  · rw [hflat]
    unfold tracks_to_remove
    rw [filterMap_entry_positions]
    apply List.Pairwise.filter
    rw [hsort, List.pairwise_reverse]
    exact hsorted
  · exact split_into_batches_size_le _ 100
  · rw [hflat]
    intro e he p hp
    obtain ⟨p1, _, _, _, hpos, hdup, _⟩ := hmem_entry e he
    rw [hpos] at hp
    rcases List.mem_singleton.mp hp with rfl
    exact hmem_dup p hdup

/-! ### Claim C9: pagination -/

lemma range_map_offsets (limit off n : Nat) :
    (List.range (n + 1)).map (fun k => off + k * limit) =
      off :: (List.range n).map (fun k => (off + limit) + k * limit) := by
  rw [List.range_succ_eq_map]
  simp only [List.map_cons, Nat.zero_mul, Nat.add_zero, List.map_map]
  refine congrArg₂ _ rfl ?_
  apply List.map_congr_left
  intro k _
  simp only [Function.comp_apply, Nat.succ_mul]
  omega

lemma fetchLoop_spec {ι : Type} (limit : Nat) :
    ∀ (pages : List (Page ι)) (off : Nat),
      pages ≠ [] →
      (∀ p ∈ pages.dropLast, p.next = true) →
      (∀ p, pages.getLast? = some p → p.next = false) →
      fetchLoop limit pages off =
        ((pages.map Page.items).flatten,
         (List.range pages.length).map (fun k => off + k * limit)) := by
  intro pages
  induction pages with
  | nil => intro off h; exact absurd rfl h
  | cons p rest ih =>
    intro off _ hmid hlast
    cases rest with
    | nil =>
      have hp : p.next = false := hlast p rfl
      rw [show fetchLoop limit [p] off = (p.items, [off]) from by simp [fetchLoop, hp]]
      simp [List.range_succ]
    | cons q rest2 =>
      have hp : p.next = true := by
        apply hmid p
        rw [List.dropLast_cons₂]
        exact List.mem_cons_self _ _
      have hmid2 : ∀ x ∈ (q :: rest2).dropLast, x.next = true := by
        intro x hx
        apply hmid x
        rw [List.dropLast_cons₂]
        exact List.mem_cons_of_mem _ hx
      have hlast2 : ∀ x, (q :: rest2).getLast? = some x → x.next = false := by
        intro x hx
        exact hlast x (by rw [List.getLast?_cons_cons]; exact hx)
      rw [show fetchLoop limit (p :: q :: rest2) off =
          (p.items ++ (fetchLoop limit (q :: rest2) (off + limit)).1,
           off :: (fetchLoop limit (q :: rest2) (off + limit)).2) from by
        simp [fetchLoop, hp]]
      rw [ih (off + limit) (by simp) hmid2 hlast2]
      refine congrArg₂ Prod.mk ?_ ?_
      · simp
      · show off :: List.map (fun k => off + limit + k * limit)
            (List.range (rest2.length + 1)) =
          List.map (fun k => off + k * limit) (List.range (rest2.length + 1 + 1))
        rw [range_map_offsets limit off (rest2.length + 1)]

lemma get_playlist_tracks_flatten {ι : Type} :
    ∀ (pages : List (Page ι)),
      pages ≠ [] →
      (∀ p ∈ pages.dropLast, p.next = true) →
      (∀ p, pages.getLast? = some p → p.next = false) →
      get_playlist_tracks pages = (pages.map Page.items).flatten := by
  intro pages
  induction pages with
  | nil => intro h; exact absurd rfl h
  | cons p rest ih =>
    intro _ hmid hlast
    cases rest with
    | nil => simp [get_playlist_tracks, gptGo, hlast p rfl]
    | cons q rest2 =>
      have hp : p.next = true := by
        apply hmid p
        rw [List.dropLast_cons₂]
        exact List.mem_cons_self _ _
      have hmid2 : ∀ x ∈ (q :: rest2).dropLast, x.next = true := by
        intro x hx
        apply hmid x
        rw [List.dropLast_cons₂]
        exact List.mem_cons_of_mem _ hx
      have hlast2 : ∀ x, (q :: rest2).getLast? = some x → x.next = false := by
        intro x hx
        exact hlast x (by rw [List.getLast?_cons_cons]; exact hx)
      show p.items ++ gptGo p.next (q :: rest2) = _
      rw [hp]
      show p.items ++ (q.items ++ gptGo q.next rest2) = _
      have : q.items ++ gptGo q.next rest2 = get_playlist_tracks (q :: rest2) := rfl
      rw [this, ih (by simp) hmid2 hlast2]
      simp

/-- C9: for a finite sequence of remote pages whose non-final pages carry a
next link and whose last page does not, fetch_playlist_tracks requests pages
at offsets 0, 100, 200, ... and returns the concatenation of the items of
the pages in request order, and get_playlist_tracks of the deduplicator
returns the same concatenation, so every item of every page appears exactly
once and in order. -/
theorem pagination_spec {ι : Type} (pages : List (Page ι)) (hne : pages ≠ [])
    (hmid : ∀ p ∈ pages.dropLast, p.next = true)
    (hlast : ∀ p, pages.getLast? = some p → p.next = false) :
    fetch_playlist_tracks pages =
      ((pages.map Page.items).flatten,
       (List.range pages.length).map (fun k => k * 100)) ∧
    get_playlist_tracks pages = (pages.map Page.items).flatten := by
  constructor
  · rw [fetch_playlist_tracks, fetchLoop_spec 100 pages 0 hne hmid hlast]
    simp
  · exact get_playlist_tracks_flatten pages hne hmid hlast

theorem pagination_spec_witness :
    fetch_playlist_tracks [Page.mk ([1, 2] : List Nat) true, Page.mk [3] false] =
      (([Page.mk ([1, 2] : List Nat) true, Page.mk [3] false].map Page.items).flatten,
       (List.range ([Page.mk ([1, 2] : List Nat) true, Page.mk [3] false]).length).map
         (fun k => k * 100)) ∧
    get_playlist_tracks [Page.mk ([1, 2] : List Nat) true, Page.mk [3] false] =
      ([Page.mk ([1, 2] : List Nat) true, Page.mk [3] false].map Page.items).flatten :=
  pagination_spec _ (by simp)
    (by
      intro p hp
      simp at hp
      subst hp
      rfl)
    (by
      intro p hp
      simp at hp
      subst hp
      rfl)

/-! ### Claim C10: normalize_tracks -/

/-- C10: normalize_tracks preserves length; the k-th output record has
position k; a record is unavailable exactly when the input item has no track
info, in which case its name is Unavailable Track and its id and uri are
None; otherwise it is available with id, uri, name, artists, album and
duration copied from the track. -/
theorem normalize_tracks_spec (items : List BItem) :
    (normalize_tracks items).length = items.length ∧
    (∀ k item, items.get? k = some item →
      ∃ nt, (normalize_tracks items).get? k = some nt ∧
        nt.position = k ∧
        (nt.available = false ↔ item.track = none) ∧
        (item.track = none → nt.name = some "Unavailable Track".toList ∧
          nt.id = none ∧ nt.uri = none) ∧
        (∀ tr, item.track = some tr → nt.available = true ∧ nt.id = tr.id ∧
          nt.uri = tr.uri ∧ nt.name = tr.name ∧ nt.artists = tr.artists.getD [] ∧
          nt.album = some (normAlbum tr) ∧ nt.duration_ms = tr.duration_ms)) := by
  constructor
  · simp [normalize_tracks]
  · intro k item hget
    refine ⟨normalizeItem k item, ?_, ?_, ?_, ?_, ?_⟩
    · rw [normalize_tracks, List.get?_map, List.get?_enum, hget]
      rfl
    · cases htr : item.track <;> simp [normalizeItem, htr]
    · cases htr : item.track <;> simp [normalizeItem, htr]
    · intro htr
      simp [normalizeItem, htr]
    · intro tr htr
      simp [normalizeItem, htr]

theorem normalize_tracks_spec_witness :
    ∃ nt, (normalize_tracks [(⟨none, some "d".toList, none⟩ : BItem)]).get? 0 = some nt ∧
      nt.position = 0 ∧
      (nt.available = false ↔ (⟨none, some "d".toList, none⟩ : BItem).track = none) ∧
      ((⟨none, some "d".toList, none⟩ : BItem).track = none →
        nt.name = some "Unavailable Track".toList ∧ nt.id = none ∧ nt.uri = none) ∧
      (∀ tr, (⟨none, some "d".toList, none⟩ : BItem).track = some tr →
        nt.available = true ∧ nt.id = tr.id ∧ nt.uri = tr.uri ∧ nt.name = tr.name ∧
        nt.artists = tr.artists.getD [] ∧ nt.album = some (normAlbum tr) ∧
        nt.duration_ms = tr.duration_ms) :=
  (normalize_tracks_spec _).2 0 _ rfl

/-! ### Claims C6, C7 and C8: the adder -/

/-- C7: process_m3u_batch submits the resolved identifiers in consecutive
slices of at most 100 each, preserving resolution order (their concatenation
is the resolved id list), and the returned number of tracks added is the sum
of the sizes of the slices whose add call succeeded. -/
theorem process_m3u_batch_batches (env : AdderEnv) (tracks : List Song) :
    (split_into_batches (resolveTracks env tracks).1 100).flatten =
      (resolveTracks env tracks).1 ∧
    (∀ b ∈ split_into_batches (resolveTracks env tracks).1 100, b.length ≤ 100) ∧
    (process_m3u_batch env tracks).1 =
      ((split_into_batches (resolveTracks env tracks).1 100).enum.map
        (fun bi => if env.addOk bi.1 then bi.2.length else 0)).sum :=
  ⟨split_into_batches_flatten 100 (by norm_num) _,
   split_into_batches_size_le _ 100, rfl⟩

lemma resolveStep_failed (env : AdderEnv) (t : Song) :
    (resolveStep env t).2.1 = if failsResolution env t then [t] else [] := by
  by_cases hurl : is_spotify_url t.path = true
  · cases hext : extract_track_id_from_url t.path with
    | some tid =>
      have h1 : resolveStep env t = ([tid], [], []) := by
        simp [resolveStep, hurl, hext]
      have h2 : failsResolution env t = false := by
        simp [failsResolution, hurl, hext]
      rw [h1, h2]
      rfl
    | none =>
      have h1 : resolveStep env t = resolveSearch env t := by
        simp [resolveStep, hurl, hext]
      have h2 : failsResolution env t =
          (if extract_search_query_from_song t = [] then true
           else match env.search (extract_search_query_from_song t) with
             | .raised => true
             | .ok [] => true
             | .ok (_ :: _) => false) := by
        simp [failsResolution, hurl, hext]
      rw [h1, h2]
      unfold resolveSearch
      by_cases hq : extract_search_query_from_song t = []
      · simp [hq]
      · cases hs : env.search (extract_search_query_from_song t) with
        | raised => simp [hq, hs]
        | ok ids => cases ids <;> simp [hq, hs]
  · have h1 : resolveStep env t = resolveSearch env t := by
      simp [resolveStep, hurl]
    have h2 : failsResolution env t =
        (if extract_search_query_from_song t = [] then true
         else match env.search (extract_search_query_from_song t) with
           | .raised => true
           | .ok [] => true
           | .ok (_ :: _) => false) := by
      simp [failsResolution, hurl]
    rw [h1, h2]
    unfold resolveSearch
    by_cases hq : extract_search_query_from_song t = []
    · simp [hq]
    · cases hs : env.search (extract_search_query_from_song t) with
      | raised => simp [hq, hs]
      | ok ids => cases ids <;> simp [hq, hs]

lemma resolveStep_count (env : AdderEnv) (t : Song) :
    (resolveStep env t).1.length + (resolveStep env t).2.1.length = 1 := by
  unfold resolveStep resolveSearch
  by_cases hurl : is_spotify_url t.path = true
  · cases hext : extract_track_id_from_url t.path with
    | some tid => simp [hurl, hext]
    | none =>
      by_cases hq : extract_search_query_from_song t = []
      · simp [hurl, hext, hq]
      · cases hs : env.search (extract_search_query_from_song t) with
        | raised => simp [hurl, hext, hq, hs]
        | ok ids => cases ids <;> simp [hurl, hext, hq, hs]
  · by_cases hq : extract_search_query_from_song t = []
    · simp [hurl, hq]
    · cases hs : env.search (extract_search_query_from_song t) with
      | raised => simp [hurl, hq, hs]
      | ok ids => cases ids <;> simp [hurl, hq, hs]

lemma resolveTracks_cons (env : AdderEnv) (t : Song) (ts : List Song) :
    resolveTracks env (t :: ts) =
      ((resolveStep env t).1 ++ (resolveTracks env ts).1,
       (resolveStep env t).2.1 ++ (resolveTracks env ts).2.1,
       (resolveStep env t).2.2 ++ (resolveTracks env ts).2.2) := rfl

lemma resolveTracks_failed (env : AdderEnv) :
    ∀ ts : List Song, (resolveTracks env ts).2.1 = ts.filter (failsResolution env) := by
  intro ts
  induction ts with
  | nil => rfl
  | cons t ts ih =>
    rw [resolveTracks_cons]
    show (resolveStep env t).2.1 ++ (resolveTracks env ts).2.1 = _
    rw [resolveStep_failed, ih]
    by_cases hf : failsResolution env t = true
    · rw [if_pos hf, List.filter_cons_of_pos hf]
      rfl
    · rw [if_neg hf, List.filter_cons_of_neg (by simpa using hf)]
      rfl

lemma resolveTracks_count (env : AdderEnv) :
    ∀ ts : List Song,
      (resolveTracks env ts).1.length + (resolveTracks env ts).2.1.length = ts.length := by
  intro ts
  induction ts with
  | nil => rfl
  | cons t ts ih =>
    rw [resolveTracks_cons]
    have h := resolveStep_count env t
    simp only [List.length_append, List.length_cons]
    omega

/-- C8: log-and-skip failure handling: the failed tracks are exactly the
parsed tracks for which no search query can be built, the search raises, or
it returns no items; every parsed track contributes to exactly one of the
resolved id list and the failed list (the lengths add up); resolution of a
longer list is the componentwise append of the resolutions, so a failure
never stops the remaining tracks; and process_m3u_batch returns the triple
(number added, number of failed tracks, the failed track records). -/
theorem process_m3u_batch_failures (env : AdderEnv) (tracks : List Song) :
    (resolveTracks env tracks).2.1 = tracks.filter (failsResolution env) ∧
    (resolveTracks env tracks).1.length + (resolveTracks env tracks).2.1.length =
      tracks.length ∧
    (∀ ts us : List Song, resolveTracks env (ts ++ us) =
      ((resolveTracks env ts).1 ++ (resolveTracks env us).1,
       (resolveTracks env ts).2.1 ++ (resolveTracks env us).2.1,
       (resolveTracks env ts).2.2 ++ (resolveTracks env us).2.2)) ∧
    process_m3u_batch env tracks =
      ((process_m3u_batch env tracks).1, (resolveTracks env tracks).2.1.length,
       (resolveTracks env tracks).2.1) := by
  refine ⟨resolveTracks_failed env tracks, resolveTracks_count env tracks, ?_, rfl⟩
  intro ts us
  induction ts with
  | nil => rfl
  | cons t ts ih =>
    rw [List.cons_append, resolveTracks_cons, ih, resolveTracks_cons]
    simp [List.append_assoc]

/-- C6: a track whose path parses to host open.spotify.com with a path
containing the substring track, and from which an alphanumeric id after
track/ is extracted, resolves directly to that id with no search issued;
any other track goes through search: the issued query is the one built by
extract_search_query_from_song (one search when it is non-empty) and the
resolved identifier is the id of the first search result; the query is
track:{title} artist:{artist} when both metadata fields are non-empty,
otherwise it is derived by splitting the extension-free file name on the
dash separator, else it is the bare file name. -/
theorem resolve_track_spec (env : AdderEnv) (t : Song) :
    ((urlparse t.path).netloc = "open.spotify.com".toList →
      containsSub "track".toList (urlparse t.path).path = true →
      ∀ tid, extract_track_id_from_url t.path = some tid →
        resolveStep env t = ([tid], [], [])) ∧
    (is_spotify_url t.path = false ∨ extract_track_id_from_url t.path = none →
      ((resolveStep env t).2.2 =
        if extract_search_query_from_song t = [] then []
        else [extract_search_query_from_song t]) ∧
      (∀ tid rest, extract_search_query_from_song t ≠ [] →
        env.search (extract_search_query_from_song t) = .ok (tid :: rest) →
        (resolveStep env t).1 = [tid])) ∧
    (t.artist ≠ [] → t.title ≠ [] →
      extract_search_query_from_song t =
        "track:".toList ++ t.title ++ " artist:".toList ++ t.artist) ∧
    (¬(t.artist ≠ [] ∧ t.title ≠ []) → t.path ≠ [] →
      (∀ a b, splitOnce sepDash (splitextRoot (pyBasename t.path)) = (a, some b) →
        extract_search_query_from_song t =
          "track:".toList ++ b ++ " artist:".toList ++ a) ∧
      (∀ r, splitOnce sepDash (splitextRoot (pyBasename t.path)) = (r, none) →
        extract_search_query_from_song t = r)) := by
  refine ⟨?_, ?_, ?_, ?_⟩
  · intro h1 h2 tid hext
    have hurl : is_spotify_url t.path = true := by
      simp only [is_spotify_url, Bool.and_eq_true, beq_iff_eq]
      exact ⟨h1, h2⟩
    simp [resolveStep, hurl, hext]
  · intro h
    have hsearch : resolveStep env t = resolveSearch env t := by
      rcases h with h | h
      · have hurl : ¬(is_spotify_url t.path = true) := by simp [h]
        simp [resolveStep, hurl]
      · by_cases hurl : is_spotify_url t.path = true
        · simp [resolveStep, hurl, h]
        · simp [resolveStep, hurl]
    rw [hsearch]
    unfold resolveSearch
    constructor
    · by_cases hq : extract_search_query_from_song t = []
      · simp [hq]
      · cases hs : env.search (extract_search_query_from_song t) with
        | raised => simp [hq, hs]
        | ok ids => cases ids <;> simp [hq, hs]
    · intro tid rest hq hs
      simp [hq, hs]
  · intro ha ht
    unfold extract_search_query_from_song
    rw [if_pos ⟨ha, ht⟩]
  · intro hnot hpath
    constructor
    · intro a b hsplit
      unfold extract_search_query_from_song
      rw [if_neg hnot, if_neg hpath]
      simp only [hsplit]
    · intro r hsplit
      unfold extract_search_query_from_song
      rw [if_neg hnot, if_neg hpath]
      simp only [hsplit]

theorem resolve_track_spec_witness :
    resolveStep ⟨fun _ => SearchOutcome.ok ["id1".toList], fun _ => true⟩
        ⟨"https://open.spotify.com/track/abc123".toList, [], [], 0, []⟩ =
      (["abc123".toList], [], []) ∧
    extract_search_query_from_song ⟨"x.mp3".toList, "T".toList, "A".toList, 0, []⟩ =
      "track:".toList ++ "T".toList ++ " artist:".toList ++ "A".toList ∧
    (resolveStep ⟨fun _ => SearchOutcome.ok ["id1".toList], fun _ => true⟩
        ⟨"/m/Artist - Title.mp3".toList, [], [], 0, []⟩).1 = ["id1".toList] ∧
    extract_search_query_from_song ⟨"/m/Artist - Title.mp3".toList, [], [], 0, []⟩ =
      "track:".toList ++ "Title".toList ++ " artist:".toList ++ "Artist".toList :=
  ⟨(resolve_track_spec ⟨fun _ => SearchOutcome.ok ["id1".toList], fun _ => true⟩
      ⟨"https://open.spotify.com/track/abc123".toList, [], [], 0, []⟩).1
      (by decide) (by decide) _ (by decide),
   (resolve_track_spec ⟨fun _ => SearchOutcome.ok ["id1".toList], fun _ => true⟩
      ⟨"x.mp3".toList, "T".toList, "A".toList, 0, []⟩).2.2.1 (by decide) (by decide),
   ((resolve_track_spec ⟨fun _ => SearchOutcome.ok ["id1".toList], fun _ => true⟩
      ⟨"/m/Artist - Title.mp3".toList, [], [], 0, []⟩).2.1
      (Or.inl (by decide))).2 _ _ (by decide) rfl,
   ((resolve_track_spec ⟨fun _ => SearchOutcome.ok ["id1".toList], fun _ => true⟩
      ⟨"/m/Artist - Title.mp3".toList, [], [], 0, []⟩).2.2.2
      (by decide) (by decide)).1 _ _ (by decide)⟩

/-! ### Claim C1: parser/writer round trip -/

/-- The string carries no trailing whitespace. -/
def noTrail (l : Str) : Prop := ∀ c, l.getLast? = some c → pyWS c = false

/-- The string carries no leading whitespace. -/
def noLead (l : Str) : Prop := ∀ c, l.head? = some c → pyWS c = false

lemma head?_dropWhile (p : Char → Bool) :
    ∀ (l : Str) (c : Char), (l.dropWhile p).head? = some c → p c = false := by
  intro l
  induction l with
  | nil => intro c h; cases h
  | cons a l ih =>
    intro c h
    by_cases hpa : p a = true
    · rw [List.dropWhile_cons, if_pos hpa] at h
      exact ih c h
    · rw [List.dropWhile_cons, if_neg hpa, List.head?_cons] at h
      cases Option.some.inj h
      simpa using hpa

lemma noTrail_stripEnd (l : Str) : noTrail (stripEnd l) := by
  intro c hc
  unfold stripEnd at hc
  rw [List.getLast?_reverse] at hc
  exact head?_dropWhile pyWS l.reverse c hc

lemma noTrail_strip (s : Str) : noTrail (strip s) :=
  noTrail_stripEnd _

lemma noLead_stripEnd (x : Str) (h : noLead x) : noLead (stripEnd x) := by
  intro c hc
  unfold stripEnd at hc
  rw [List.head?_reverse] at hc
  have hne : x.reverse.dropWhile pyWS ≠ [] := by
    intro he
    rw [he] at hc
    cases hc
  have hdecomp : x.reverse.takeWhile pyWS ++ x.reverse.dropWhile pyWS = x.reverse :=
    List.takeWhile_append_dropWhile pyWS x.reverse
  have hlast : x.reverse.getLast? = some c := by
    rw [← hdecomp, List.getLast?_append_of_ne_nil _ hne]
    exact hc
  rw [List.getLast?_reverse] at hlast
  exact h c hlast

lemma noLead_strip (s : Str) : noLead (strip s) :=
  noLead_stripEnd _ (fun c hc => head?_dropWhile pyWS s c hc)

lemma stripEnd_eq_self (l : Str) (h : noTrail l) : stripEnd l = l := by
  cases hrev : l.reverse with
  | nil =>
    have hnil : l = [] := by
      have := congrArg List.reverse hrev
      simpa using this
    subst hnil
    rfl
  | cons c cs =>
    have hlast : l.getLast? = some c := by
      rw [← List.head?_reverse, hrev, List.head?_cons]
    have hws := h c hlast
    unfold stripEnd
    rw [hrev, List.dropWhile_cons, if_neg (by simp [hws]), ← hrev, List.reverse_reverse]

lemma dropWhile_eq_self_of_noLead (l : Str) (h : noLead l) : l.dropWhile pyWS = l := by
  cases l with
  | nil => rfl
  | cons a l =>
    have hws := h a (by rw [List.head?_cons])
    rw [List.dropWhile_cons, if_neg (by simp [hws])]

lemma strip_eq_self (l : Str) (hl : noLead l) (ht : noTrail l) : strip l = l := by
  unfold strip
  rw [dropWhile_eq_self_of_noLead l hl, stripEnd_eq_self l ht]

lemma strip_idem (s : Str) : strip (strip s) = strip s :=
  strip_eq_self _ (noLead_strip s) (noTrail_strip s)

lemma beginsWith_append_self (p : Str) : ∀ q : Str, beginsWith p (p ++ q) = true := by
  induction p with
  | nil => intro q; rfl
  | cons c cs ih =>
    intro q
    show (decide (c = c) && beginsWith cs (cs ++ q)) = true
    simp [ih q]

lemma beginsWith_decomp (sep : Str) :
    ∀ s : Str, beginsWith sep s = true → s = sep ++ s.drop sep.length := by
  induction sep with
  | nil => intro s _; rfl
  | cons p ps ih =>
    intro s h
    obtain ⟨cs, rfl⟩ := beginsWith_head p ps s h
    have h2 : beginsWith ps cs = true := by
      simp only [beginsWith, Bool.and_eq_true, decide_eq_true_eq] at h
      exact h.2
    show p :: cs = p :: ps ++ (p :: cs).drop (ps.length + 1)
    rw [List.drop_succ_cons]
    exact congrArg (p :: ·) (ih cs h2)

lemma splitOnce_none (sep : Str) :
    ∀ s : Str, (splitOnce sep s).2 = none → (splitOnce sep s).1 = s := by
  intro s
  induction s with
  | nil => intro _; rfl
  | cons c cs ih =>
    intro h
    by_cases hb : beginsWith sep (c :: cs) = true
    · simp only [splitOnce, if_pos hb] at h
      cases h
    · simp only [splitOnce, if_neg hb] at h ⊢
      exact congrArg (c :: ·) (ih h)

lemma splitOnce_some (sep : Str) :
    ∀ s a t : Str, splitOnce sep s = (a, some t) → s = a ++ sep ++ t := by
  intro s
  induction s with
  | nil =>
    intro a t h
    simp [splitOnce] at h
  | cons c cs ih =>
    intro a t h
    by_cases hb : beginsWith sep (c :: cs) = true
    · simp only [splitOnce, if_pos hb, Prod.mk.injEq] at h
      obtain ⟨ha, ht⟩ := h
      have ht2 := Option.some.inj ht
      rw [← ha, ← ht2]
      simpa using beginsWith_decomp sep (c :: cs) hb
    · simp only [splitOnce, if_neg hb, Prod.mk.injEq] at h
      obtain ⟨ha, ht⟩ := h
      have hcs := ih (splitOnce sep cs).1 t (by rw [← ht])
      rw [← ha]
      simp only [List.cons_append]
      exact congrArg (c :: ·) hcs

lemma splitOnce_single_append (c : Char) :
    ∀ (a b : Str), c ∉ a → splitOnce [c] (a ++ c :: b) = (a, some b) := by
  intro a
  induction a with
  | nil =>
    intro b _
    have hb : beginsWith [c] (c :: b) = true := by
      show (decide (c = c) && true) = true
      simp
    simp only [List.nil_append, splitOnce, if_pos hb]
    rfl
  | cons x a' ih =>
    intro b hmem
    have hxc : ¬(c = x) := fun h => hmem (by rw [h]; exact List.mem_cons_self x a')
    have hb : ¬(beginsWith [c] (x :: (a' ++ c :: b)) = true) := by
      show ¬((decide (c = x) && true) = true)
      simp [hxc]
    have hr := ih b (fun hm => hmem (List.mem_cons_of_mem x hm))
    show splitOnce [c] (x :: (a' ++ c :: b)) = (x :: a', some b)
    simp [splitOnce, hb, hr]

lemma digitChar_spec (m : Nat) (h : m < 10) :
    (digitChar m).isDigit = true ∧ digitVal (digitChar m) = m ∧ pyWS (digitChar m) = false ∧
      digitChar m ≠ ',' ∧ digitChar m ≠ '+' ∧ digitChar m ≠ '-' := by
  interval_cases m <;> decide

lemma natToStr_props : ∀ n : Nat, natToStr n ≠ [] ∧
    ∀ c ∈ natToStr n, c.isDigit = true ∧ pyWS c = false ∧ c ≠ ',' := by
  intro n
  induction n using Nat.strong_induction_on with
  | _ n ih =>
    by_cases h : n < 10
    · unfold natToStr
      rw [dif_pos h]
      refine ⟨by simp, ?_⟩
      intro c hc
      rw [List.mem_singleton] at hc
      subst hc
      have hd := digitChar_spec n h
      exact ⟨hd.1, hd.2.2.1, hd.2.2.2.1⟩
    · unfold natToStr
      rw [dif_neg h]
      refine ⟨by simp, ?_⟩
      intro c hc
      rcases List.mem_append.mp hc with hc | hc
      · exact (ih (n / 10) (Nat.div_lt_self (by omega) (by omega))).2 c hc
      · rw [List.mem_singleton] at hc
        subst hc
        have hd := digitChar_spec (n % 10) (Nat.mod_lt n (by omega))
        exact ⟨hd.1, hd.2.2.1, hd.2.2.2.1⟩

lemma foldlVal_natToStr :
    ∀ n : Nat, (natToStr n).foldl (fun acc c => acc * 10 + digitVal c) 0 = n := by
  intro n
  induction n using Nat.strong_induction_on with
  | _ n ih =>
    by_cases h : n < 10
    · unfold natToStr
      rw [dif_pos h]
      simp [(digitChar_spec n h).2.1]
    · unfold natToStr
      rw [dif_neg h, List.foldl_append]
      rw [ih (n / 10) (Nat.div_lt_self (by omega) (by omega))]
      simp only [List.foldl_cons, List.foldl_nil]
      rw [(digitChar_spec (n % 10) (Nat.mod_lt n (by omega))).2.1]
      omega

lemma digitsVal?_natToStr (n : Nat) : digitsVal? (natToStr n) = some n := by
  have hp := natToStr_props n
  have hall : (natToStr n).all Char.isDigit = true := by
    rw [List.all_eq_true]
    intro c hc
    exact (hp.2 c hc).1
  unfold digitsVal?
  rw [if_pos ⟨hp.1, hall⟩, foldlVal_natToStr n]

lemma comma_not_mem_intToStr (d : Int) : ',' ∉ intToStr d := by
  unfold intToStr
  by_cases hd : d < 0
  · rw [if_pos hd]
    intro hmem
    rcases List.mem_cons.mp hmem with h | h
    · exact absurd h (by decide)
    · exact ((natToStr_props _).2 _ h).2.2 rfl
  · rw [if_neg hd]
    intro hmem
    exact ((natToStr_props _).2 _ hmem).2.2 rfl

lemma noWS_intToStr (d : Int) : ∀ c ∈ intToStr d, pyWS c = false := by
  unfold intToStr
  by_cases hd : d < 0
  · rw [if_pos hd]
    intro c hc
    rcases List.mem_cons.mp hc with h | h
    · subst h
      decide
    · exact ((natToStr_props _).2 _ h).2.1
  · rw [if_neg hd]
    intro c hc
    exact ((natToStr_props _).2 _ hc).2.1

lemma noLead_of_all (l : Str) (h : ∀ c ∈ l, pyWS c = false) : noLead l := by
  intro c hc
  cases l with
  | nil => cases hc
  | cons a l =>
    rw [List.head?_cons] at hc
    cases Option.some.inj hc
    exact h _ (List.mem_cons_self _ _)

lemma noTrail_of_all (l : Str) (h : ∀ c ∈ l, pyWS c = false) : noTrail l := by
  intro c hc
  rw [← List.head?_reverse] at hc
  exact noLead_of_all l.reverse (fun c hcm => h c (List.mem_reverse.mp hcm)) c hc

lemma strip_intToStr (d : Int) : strip (intToStr d) = intToStr d :=
  strip_eq_self _ (noLead_of_all _ (noWS_intToStr d)) (noTrail_of_all _ (noWS_intToStr d))

lemma pyInt?_intToStr (d : Int) : pyInt? (intToStr d) = some d := by
  unfold pyInt?
  rw [strip_intToStr]
  by_cases hd : d < 0
  · rw [show intToStr d = '-' :: natToStr (-d).toNat from by unfold intToStr; rw [if_pos hd]]
    simp [digitsVal?_natToStr]
    omega
  · obtain ⟨c, cs, hx⟩ := List.exists_cons_of_ne_nil (natToStr_props d.toNat).1
    have hmem : c ∈ natToStr d.toNat := by rw [hx]; exact List.mem_cons_self c cs
    have hdig := ((natToStr_props d.toNat).2 c hmem).1
    have hplus : ¬(c = '+') := by
      intro he
      rw [he] at hdig
      exact absurd hdig (by decide)
    have hminus : ¬(c = '-') := by
      intro he
      rw [he] at hdig
      exact absurd hdig (by decide)
    rw [show intToStr d = natToStr d.toNat from by unfold intToStr; rw [if_neg hd], hx]
    show (if c = '+' then (digitsVal? cs).map (fun n => (n : Int))
        else if c = '-' then (digitsVal? cs).map (fun n => -(n : Int))
        else (digitsVal? (c :: cs)).map (fun n => (n : Int))) = some d
    rw [if_neg hplus, if_neg hminus, ← hx, digitsVal?_natToStr]
    simp
    omega

lemma ne_hdr_of_not_hash (line : Str) (h2 : beginsWith hashStr (line) = false) :
    line ≠ hdrEXTM3U := by
  intro he
  rw [he] at h2
  exact absurd h2 (by decide)

lemma not_tag_of_not_hash (line : Str) (h2 : beginsWith hashStr line = false) :
    beginsWith tagEXTINF line = false := by
  cases hb : beginsWith tagEXTINF line with
  | false => rfl
  | true =>
    rw [beginsWith_hash_of_tag _ hb] at h2
    exact absurd h2 (by simp)

lemma parseStepLine_path_none (line : Str) (h1 : line ≠ [])
    (h2 : beginsWith hashStr line = false) :
    parseStepLine none line =
      (none, [{ path := line, title := [], artist := [], duration := 0,
                metadata := [] }]) := by
  unfold parseStepLine
  rw [if_neg h1, if_neg (ne_hdr_of_not_hash line h2),
    if_neg (by simp [not_tag_of_not_hash line h2]), if_neg (by simp),
    if_neg (by simp [h2])]

lemma parseStepLine_path_some (s0 : Song) (line : Str) (h1 : line ≠ [])
    (h2 : beginsWith hashStr line = false) :
    parseStepLine (some s0) line = (none, [{ s0 with path := line }]) := by
  unfold parseStepLine
  rw [if_neg h1, if_neg (ne_hdr_of_not_hash line h2),
    if_neg (by simp [not_tag_of_not_hash line h2]), if_pos ⟨h2, rfl⟩]

lemma parseStepLine_extinf (cur : Option Song) (line : Str) (h1 : line ≠ [])
    (hhdr : line ≠ hdrEXTM3U) (htag : beginsWith tagEXTINF line = true) :
    parseStepLine cur line = (extinfStep line, []) := by
  unfold parseStepLine
  rw [if_neg h1, if_neg hhdr, if_pos htag]

lemma extline_ne_nil (r : Str) : tagEXTINF ++ r ≠ [] := by
  intro h
  rw [List.append_eq_nil] at h
  exact absurd h.1 (by decide)

lemma extline_ne_hdr (r : Str) : tagEXTINF ++ r ≠ hdrEXTM3U := by
  intro h
  have hlen := congrArg List.length h
  rw [List.length_append] at hlen
  have h8 : tagEXTINF.length = 8 := by decide
  have h7 : hdrEXTM3U.length = 7 := by decide
  omega

lemma noLead_extline (r : Str) : noLead (tagEXTINF ++ r) := by
  intro c hc
  rw [show tagEXTINF ++ r = '#' :: ("EXTINF:".toList ++ r) from rfl, List.head?_cons] at hc
  cases Option.some.inj hc
  decide

lemma noTrail_extline (d : Int) (md : Str) (hmd : md ≠ []) (hnt : noTrail md) :
    noTrail (tagEXTINF ++ (intToStr d ++ ',' :: md)) := by
  intro c hc
  rw [List.getLast?_append_of_ne_nil _ (by simp)] at hc
  rw [List.getLast?_append_of_ne_nil _ (by simp)] at hc
  rw [show (',' :: md) = [','] ++ md from rfl,
    List.getLast?_append_of_ne_nil _ hmd] at hc
  exact hnt c hc

lemma extinfStep_write (d : Int) (md : Str) :
    extinfStep (tagEXTINF ++ (intToStr d ++ ',' :: md)) =
      some { path := [], title := (titleArtistPair md).1,
             artist := (titleArtistPair md).2, duration := d, metadata := md } := by
  have hdrop : (tagEXTINF ++ (intToStr d ++ ',' :: md)).drop 8 = intToStr d ++ ',' :: md := by
    have h8 : tagEXTINF.length = 8 := by decide
    rw [← h8, List.drop_left]
  simp only [extinfStep, hdrop,
    splitOnce_single_append ',' (intToStr d) md (comma_not_mem_intToStr d),
    pyInt?_intToStr]

/-- The invariant maintained by parse_m3u for every emitted record. -/
def GoodSong (s : Song) : Prop :=
  s.path ≠ [] ∧ beginsWith hashStr s.path = false ∧ strip s.path = s.path ∧
    (s.title, s.artist) = titleArtistPair s.metadata ∧ noTrail s.metadata

/-- The invariant maintained for the pending current_song state. -/
def GoodPend (cur : Option Song) : Prop :=
  ∀ s, cur = some s →
    (s.title, s.artist) = titleArtistPair s.metadata ∧ noTrail s.metadata

lemma extinfStep_pend (line : Str) (hnt : noTrail line) : GoodPend (extinfStep line) := by
  intro s hs
  simp only [extinfStep] at hs
  cases hint : pyInt? (splitOnce [','] (line.drop 8)).1 with
  | none => rw [hint] at hs; cases hs
  | some d =>
    rw [hint] at hs
    cases Option.some.inj hs
    constructor
    · rfl
    · cases hsp : (splitOnce [','] (line.drop 8)).2 with
      | none =>
        simp only [hsp]
        intro c hc
        cases hc
      | some t =>
        simp only [hsp]
        intro c hc
        have ht_ne : t ≠ [] := by
          intro he
          rw [he] at hc
          cases hc
        have hdec := splitOnce_some [','] (line.drop 8) (splitOnce [','] (line.drop 8)).1 t
          (by rw [← hsp])
        have hld : (line.drop 8).getLast? = some c := by
          rw [hdec, List.getLast?_append_of_ne_nil _ ht_ne]
          exact hc
        have hld_ne : line.drop 8 ≠ [] := by
          intro he
          rw [he] at hld
          cases hld
        refine hnt c ?_
        rw [← List.take_append_drop 8 line, List.getLast?_append_of_ne_nil _ hld_ne]
        exact hld

lemma parseStepLine_good (cur : Option Song) (line : Str)
    (hcur : GoodPend cur) (hnt : noTrail line) (hst : strip line = line) :
    GoodPend (parseStepLine cur line).1 ∧
      ∀ s ∈ (parseStepLine cur line).2, GoodSong s := by
  unfold parseStepLine
  by_cases h1 : line = []
  · rw [if_pos h1]
    exact ⟨hcur, fun s hs => absurd hs (by simp)⟩
  · rw [if_neg h1]
    by_cases h2 : line = hdrEXTM3U
    · rw [if_pos h2]
      exact ⟨hcur, fun s hs => absurd hs (by simp)⟩
    · rw [if_neg h2]
      by_cases h3 : beginsWith tagEXTINF line = true
      · rw [if_pos h3]
        exact ⟨extinfStep_pend line hnt, fun s hs => absurd hs (by simp)⟩
      · rw [if_neg h3]
        by_cases h4 : beginsWith hashStr line = false ∧ cur.isSome = true
        · rw [if_pos h4]
          cases hc : cur with
          | none =>
            rw [hc] at h4
            simp at h4
          | some s0 =>
            constructor
            · intro s hs
              simp at hs
            · intro s hs
              simp only [List.mem_singleton] at hs
              subst hs
              obtain ⟨hta, hmd⟩ := hcur s0 hc
              exact ⟨h1, h4.1, hst, hta, hmd⟩
        · rw [if_neg h4]
          by_cases h5 : beginsWith hashStr line = true
          · rw [if_pos h5]
            exact ⟨hcur, fun s hs => absurd hs (by simp)⟩
          · rw [if_neg h5]
            constructor
            · exact hcur
            · intro s hs
              rw [List.mem_singleton] at hs
              subst hs
              refine ⟨h1, ?_, hst, rfl, ?_⟩
              · cases hbw : beginsWith hashStr line with
                | false => rfl
                | true => exact absurd hbw h5
              · intro c hc
                cases hc

lemma parseLines_good : ∀ (lines : List Str) (cur : Option Song),
    GoodPend cur → ∀ s ∈ parseLines cur lines, GoodSong s := by
  intro lines
  induction lines with
  | nil => intro cur _ s hs; cases hs
  | cons l rest ih =>
    intro cur hcur s hs
    rw [parseLines_cons] at hs
    have hstep := parseStepLine_good cur (strip l) hcur (noTrail_strip l) (strip_idem l)
    rcases List.mem_append.mp hs with hs | hs
    · exact hstep.2 s hs
    · exact ih (parseStep cur l).1 hstep.1 s hs

lemma parseLines_write :
    ∀ songs : List Song,
      (∀ s ∈ songs, GoodSong s ∧ (s.metadata ≠ [] ∨ s.duration = 0)) →
      parseLines none (songs.bind writeSongLines) = songs := by
  intro songs
  induction songs with
  | nil => intro _; rfl
  | cons s rest ih =>
    intro h
    obtain ⟨⟨hp1, hp2, hp3, hta, hmd⟩, hdur⟩ := h s (List.mem_cons_self s rest)
    have hrest := ih (fun t ht => h t (List.mem_cons_of_mem s ht))
    show parseLines none (writeSongLines s ++ rest.bind writeSongLines) = s :: rest
    by_cases hm : s.metadata = []
    · have hdur0 : s.duration = 0 := by
        rcases hdur with h0 | h0
        · exact absurd hm h0
        · exact h0
      rw [show writeSongLines s = [s.path] from by simp [writeSongLines, hm]]
      rw [List.singleton_append, parseLines_cons]
      have hstep : parseStep none s.path =
          (none, [{ path := s.path, title := [], artist := [], duration := 0,
                    metadata := [] }]) := by
        show parseStepLine none (strip s.path) = _
        rw [hp3]
        exact parseStepLine_path_none s.path hp1 hp2
      rw [hstep, hrest]
      have hs_eq : Song.mk s.path [] [] 0 [] = s := by
        have h0 : titleArtistPair [] = ([], []) := rfl
        rw [hm, h0] at hta
        have ht := congrArg Prod.fst hta
        have ha := congrArg Prod.snd hta
        simp only at ht ha
        show Song.mk s.path [] [] 0 [] =
          Song.mk s.path s.title s.artist s.duration s.metadata
        rw [ht, ha, hm, hdur0]
      show [Song.mk s.path [] [] 0 []] ++ rest = s :: rest
      rw [hs_eq]
      rfl
    · rw [show writeSongLines s =
          [tagEXTINF ++ (intToStr s.duration ++ ',' :: s.metadata), s.path] from by
        simp [writeSongLines, hm, List.append_assoc]]
      rw [show ([tagEXTINF ++ (intToStr s.duration ++ ',' :: s.metadata), s.path] :
            List Str) ++ rest.bind writeSongLines =
          (tagEXTINF ++ (intToStr s.duration ++ ',' :: s.metadata)) ::
            s.path :: rest.bind writeSongLines from rfl]
      rw [parseLines_cons]
      have hstrip_ext : strip (tagEXTINF ++ (intToStr s.duration ++ ',' :: s.metadata)) =
          tagEXTINF ++ (intToStr s.duration ++ ',' :: s.metadata) :=
        strip_eq_self _ (noLead_extline _) (noTrail_extline s.duration s.metadata hm hmd)
      have hstep1 : parseStep none (tagEXTINF ++ (intToStr s.duration ++ ',' :: s.metadata)) =
          (extinfStep (tagEXTINF ++ (intToStr s.duration ++ ',' :: s.metadata)), []) := by
        show parseStepLine none (strip _) = _
        rw [hstrip_ext]
        exact parseStepLine_extinf none _ (extline_ne_nil _) (extline_ne_hdr _)
          (beginsWith_append_self tagEXTINF _)
      rw [hstep1]
      simp only [List.nil_append]
      rw [parseLines_cons]
      have hstep2 : parseStep (extinfStep (tagEXTINF ++
            (intToStr s.duration ++ ',' :: s.metadata))) s.path = (none, [s]) := by
        rw [extinfStep_write s.duration s.metadata]
        show parseStepLine _ (strip s.path) = _
        rw [hp3, parseStepLine_path_some _ s.path hp1 hp2]
        have ht : (titleArtistPair s.metadata).1 = s.title := by rw [← hta]
        have ha : (titleArtistPair s.metadata).2 = s.artist := by rw [← hta]
        show (none, [Song.mk s.path (titleArtistPair s.metadata).1
            (titleArtistPair s.metadata).2 s.duration s.metadata]) =
          ((none : Option Song), [s])
        rw [ht, ha]
      rw [hstep2, hrest]
      rfl

/-- C1 (counterexample): the round trip can lose information.  The file with
the single metadata line EXTINF-colon-123 followed by a path line parses to a
record with duration 123 and empty metadata; the writer drops the EXTINF
line for it, and re-parsing yields duration 0, a different record list. -/
theorem parse_write_counterexample :
    parse_m3u ["#EXTINF:123".toList, "x".toList] =
      [{ path := "x".toList, title := [], artist := [], duration := 123,
         metadata := [] }] ∧
    parse_m3u (batchLines (parse_m3u ["#EXTINF:123".toList, "x".toList])) ≠
      parse_m3u ["#EXTINF:123".toList, "x".toList] := by
  constructor
  · decide
  · decide

/-- C1 (amended): for every record list that parse_m3u produces in which a
record with an empty metadata string also has duration 0 (true of all
records except those parsed from an EXTINF line with no text after its
duration), serialising with the save_batches loop body and re-parsing yields
the identical record list. -/
theorem parse_write_roundtrip (lines : List Str)
    (h : ∀ s ∈ parse_m3u lines, s.metadata ≠ [] ∨ s.duration = 0) :
    parse_m3u (batchLines (parse_m3u lines)) = parse_m3u lines := by
  have hgood : ∀ s ∈ parse_m3u lines, GoodSong s :=
    parseLines_good lines none (fun s hs => by cases hs)
  show parseLines none (hdrEXTM3U :: (parse_m3u lines).bind writeSongLines) = _
  rw [parseLines_cons, show parseStep none hdrEXTM3U = (none, []) from by decide]
  simp only [List.nil_append]
  exact parseLines_write (parse_m3u lines) (fun s hs => ⟨hgood s hs, h s hs⟩)

theorem parse_write_roundtrip_witness :
    (∀ s ∈ parse_m3u ["#EXTINF:5,A - B".toList, "x.mp3".toList, "bare.mp3".toList],
      s.metadata ≠ [] ∨ s.duration = 0) ∧
    parse_m3u (batchLines
        (parse_m3u ["#EXTINF:5,A - B".toList, "x.mp3".toList, "bare.mp3".toList])) =
      parse_m3u ["#EXTINF:5,A - B".toList, "x.mp3".toList, "bare.mp3".toList] :=
  ⟨by decide, parse_write_roundtrip _ (by decide)⟩

end M3U
